import Mathlib

/-!
Verification of the array-backed binary heap in `src/heap.rs`.

The heap stores its elements in a growable sequence (`Vec<T>` in the source,
`List α` here) interpreted as a complete binary tree: node `i` has parent
`(i-1)/2` and children `2i+1`, `2i+2`.  An ordering strategy
(`HeapOrder::left_can_go_above`, here a function `α → α → Bool` called
`order`) decides whether one element may sit above another.

Every definition below is a direct translation of the corresponding Rust
item.  Rust slice indexing panics when out of bounds; the only reachable
out-of-bounds access in the source is the one inside `Heap::remove`
(`self.data[index]` after the swap-removal), and `Heap.remove` below models
it explicitly with an `Option` result.  The repair primitives
(`heapify_down`, `heapify_up`, `chain_ok`) are only ever called with
in-bounds indices by the container, and there the option-valued element
comparison `listDom` agrees exactly with the panicking Rust accesses.
-/

/-- Comparison of two elements of a list by position:
`listDom order data i j` is `order data[i] data[j]` when both indices are in
bounds and `false` otherwise.  This models the Rust expression
`order.left_can_go_above(&data[i], &data[j])`; all call sites in the source
have both indices in bounds, where the two coincide. -/
def listDom (order : α → α → Bool) (data : List α) (i j : Nat) : Bool :=
  match data[i]?, data[j]? with
  | some a, some b => order a b
  | _, _ => false

/-- Exchange the elements at positions `i` and `j`, the model of
`data.swap(i, j)` on a Rust slice.  Out-of-bounds indices leave the list
unchanged; the source only ever swaps in-bounds indices. -/
def listSwap (data : List α) (i j : Nat) : List α :=
  match data[i]?, data[j]? with
  | some a, some b => (data.set i b).set j a
  | _, _ => data

/-- Model of `Vec::swap_remove(index)`: remove the element at `index`,
putting the last element in its place, and return it together with the
shrunk vector.  `none` models the out-of-bounds panic. -/
def swap_remove (data : List α) (index : Nat) : Option (α × List α) :=
  match data[index]?, data.getLast? with
  | some ret, some last => some (ret, (data.set index last).dropLast)
  | _, _ => none

/-- Index of the node that may replace `top_index` in one `heapify_down`
step: the first `if` of the loop body picks the left child when it can go
above the current top, the second `if` then compares the right child against
that intermediate winner (`highest_index` in the source). -/
def pick_highest (data : List α) (top_index : Nat) (order : α → α → Bool) : Nat :=
  let right_child_index := 2 * (top_index + 1)
  let left_child_index := right_child_index - 1
  let highest_index :=
    if left_child_index < data.length && listDom order data left_child_index top_index
    then left_child_index else top_index
  if right_child_index < data.length && listDom order data right_child_index highest_index
  then right_child_index else highest_index

theorem listSwap_length (data : List α) (i j : Nat) :
    (listSwap data i j).length = data.length := by
  unfold listSwap
  split
  · simp
  · rfl

theorem pick_highest_ne (data : List α) (top_index : Nat) (order : α → α → Bool)
    (h : pick_highest data top_index order ≠ top_index) :
    top_index < pick_highest data top_index order ∧
      pick_highest data top_index order < data.length := by
  simp only [pick_highest] at h ⊢
  split_ifs at h ⊢ with h1 h2 h2 <;>
    simp only [Bool.and_eq_true, decide_eq_true_eq] at h1 h2 <;> omega

/-- Model of the free function `heapify_down(data, top_index, order)`:
repeatedly pick the child that can go above the current top, swap it up and
continue from that child's position, stopping when neither child can go
above. -/
def heapify_down (data : List α) (top_index : Nat) (order : α → α → Bool) : List α :=
  let highest_index := pick_highest data top_index order
  if h : highest_index ≠ top_index then
    heapify_down (listSwap data top_index highest_index) highest_index order
  else
    data
termination_by data.length - top_index
decreasing_by
  have hlt := pick_highest_ne data top_index order h
  have hlen := listSwap_length data top_index (pick_highest data top_index order)
  omega

/-- Model of the free function `heapify_up(data, pos_index, order)`: walk the
element at `pos_index` toward the root, swapping with the parent whenever the
parent cannot go above it, stopping at the root or at a parent that can. -/
def heapify_up (data : List α) (pos_index : Nat) (order : α → α → Bool) : List α :=
  if _h : 0 < pos_index then
    let parent_index := (pos_index - 1) / 2
    if listDom order data parent_index pos_index then
      data
    else
      heapify_up (listSwap data parent_index pos_index) parent_index order
  else
    data
termination_by pos_index
decreasing_by
  omega

/-- Model of the inner `while` loop of `is_heap`: walk the parent chain from
`pos_index` to the root, requiring `order(values[parent], values[pos])` to
hold at every step. -/
def chain_ok (values : List α) (pos_index : Nat) (order : α → α → Bool) : Bool :=
  if _h : 0 < pos_index then
    let parent_index := (pos_index - 1) / 2
    listDom order values parent_index pos_index && chain_ok values parent_index order
  else
    true
termination_by pos_index
decreasing_by
  omega

/-- Model of the free function `is_heap(values, order)`: for every index in
`(values.len() + 1) / 2 .. values.len()` (the source's leaf range), check the
parent chain up to the root. -/
def is_heap (values : List α) (order : α → α → Bool) : Bool :=
  (List.range' ((values.length + 1) / 2) (values.length - (values.length + 1) / 2)).all
    (fun leaf_index => chain_ok values leaf_index order)

/-- Model of the loop in `heapify_in_place`: apply `heapify_down` at indices
`m - 1, m - 2, ..., 0` in that order. -/
def heapify_range (data : List α) (order : α → α → Bool) : Nat → List α
  | 0 => data
  | m + 1 => heapify_range (heapify_down data m order) order m

/-- Model of the free function `heapify_in_place(data, order)`:
`for i in (0..(data.len() / 2)).rev() { heapify_down(data, i, order) }`. -/
def heapify_in_place (data : List α) (order : α → α → Bool) : List α :=
  heapify_range data order (data.length / 2)

/-- Model of the `MinOrder::left_can_go_above` strategy: `left < right`
(ascending order, yielding a min-heap). -/
def minOrder [LinearOrder α] : α → α → Bool := fun left right => decide (left < right)

/-- Model of the `MaxOrder::left_can_go_above` strategy: `left > right`
(descending order, yielding a max-heap). -/
def maxOrder [LinearOrder α] : α → α → Bool := fun left right => decide (right < left)

/-- A custom ordering strategy comparing only the tens digit, a legal
`HeapOrder` instance (any `Fn(&T, &T) -> bool` is one): a strict weak order
with distinguishable equal-ranked elements. -/
def rankOrder : Int → Int → Bool := fun left right => decide (left / 10 < right / 10)

/-- Model of `struct Heap<T, Order>`: the backing growable sequence together
with its ordering strategy. -/
structure Heap (α : Type) where
  data : List α
  order : α → α → Bool

/-- Model of `Heap::len`. -/
def Heap.len (h : Heap α) : Nat := h.data.length

/-- Model of `Heap::values`. -/
def Heap.values (h : Heap α) : List α := h.data

/-- Model of `Heap::to_values`. -/
def Heap.to_values (h : Heap α) : List α := h.data

/-- Model of `Heap::from_vec_and_cmp`: bulk construction via
`heapify_in_place`. -/
def Heap.from_vec_and_cmp (data : List α) (order : α → α → Bool) : Heap α :=
  ⟨heapify_in_place data order, order⟩

/-- Model of `Heap::with_capacity_and_cmp`: the capacity is a preallocation
hint only and does not affect behavior. -/
def Heap.with_capacity_and_cmp (_capacity : Nat) (order : α → α → Bool) : Heap α :=
  ⟨[], order⟩

/-- Model of `Heap::try_from_heap_and_cmp`: checked construction, validating
with `is_heap` and returning `none` on failure. -/
def Heap.try_from_heap_and_cmp (data : List α) (order : α → α → Bool) : Option (Heap α) :=
  if is_heap data order then some ⟨data, order⟩ else none

/-- Model of `Heap::insert`: push the value at the end and sift it up. -/
def Heap.insert (h : Heap α) (value : α) : Heap α :=
  let new_node_index := h.data.length
  ⟨heapify_up (h.data ++ [value]) new_node_index h.order, h.order⟩

/-- Model of `Heap::remove(index)`; `none` models a panic.  The source first
calls `swap_remove(index)` (which panics when `index` is out of range), then,
whenever the remaining vector is non-empty, unconditionally reads
`self.data[index]` — which panics when the removed element was the last one
of a vector that is still non-empty. -/
def Heap.remove (h : Heap α) (index : Nat) : Option (α × Heap α) :=
  match swap_remove h.data index with
  | none => none
  | some (ret, data) =>
    if data.isEmpty then
      some (ret, ⟨data, h.order⟩)
    else
      match data[index]? with
      | none => none
      | some x =>
        if h.order x ret then
          some (ret, ⟨heapify_up data index h.order, h.order⟩)
        else if h.order ret x then
          some (ret, ⟨heapify_down data index h.order, h.order⟩)
        else
          some (ret, ⟨data, h.order⟩)

/-- Model of `impl Extend for Heap`: insert every yielded item in iteration
order. -/
def Heap.extend (h : Heap α) (items : List α) : Heap α :=
  items.foldl Heap.insert h

/-- Model of `Heap::<T, MinOrder<T>>::min`. -/
def Heap.minOf [LinearOrder α] (data : List α) : Heap α :=
  Heap.from_vec_and_cmp data minOrder

/-- Model of `Heap::<T, MaxOrder<T>>::max`. -/
def Heap.maxOf [LinearOrder α] (data : List α) : Heap α :=
  Heap.from_vec_and_cmp data maxOrder

/-- Model of `impl FromIterator for MinHeap`: start from
`with_capacity(iter.size_hint().0)` and insert every item. -/
def min_heap_from_iter [LinearOrder α] (items : List α) : Heap α :=
  items.foldl Heap.insert (Heap.with_capacity_and_cmp items.length minOrder)

/-- Model of `impl FromIterator for MaxHeap`. -/
def max_heap_from_iter [LinearOrder α] (items : List α) : Heap α :=
  items.foldl Heap.insert (Heap.with_capacity_and_cmp items.length maxOrder)

/-- The heap property as the specification states it: for every index
`i > 0` with parent `p = (i-1)/2`, `dominates(data[i], data[p])` is false —
no child may dominate its parent. -/
def heapProp (order : α → α → Bool) (data : List α) : Prop :=
  ∀ i, i < data.length → 0 < i → listDom order data i ((i - 1) / 2) = false

instance (order : α → α → Bool) (data : List α) : Decidable (heapProp order data) :=
  decidable_of_iff
    (∀ i, i < data.length → 0 < i → listDom order data i ((i - 1) / 2) = false) Iff.rfl

/-- The heap property restricted to edges whose parent index is at least
`k`; `heapBelow 0` is the full heap property. -/
def heapBelow (k : Nat) (order : α → α → Bool) (data : List α) : Prop :=
  ∀ i, i < data.length → 0 < i → k ≤ (i - 1) / 2 → listDom order data i ((i - 1) / 2) = false

/-- Asymmetry of an ordering strategy, one half of the strict-weak-order
contract the specification's data model imposes on `dominates`. -/
def DomAsymm (order : α → α → Bool) : Prop :=
  ∀ a b, order a b = true → order b a = false

/-- Negative transitivity of an ordering strategy, the other half of the
strict-weak-order contract: together with asymmetry it makes the complement
of `dominates` a total preorder. -/
def DomNegTrans (order : α → α → Bool) : Prop :=
  ∀ a b c, order a c = true → order a b = true ∨ order b c = true

/-! ### Plumbing lemmas about the list primitives -/

/-- Where an index lands after the positions `i` and `j` have been
exchanged. -/
def swapIdx (i j k : Nat) : Nat :=
  if k = i then j else if k = j then i else k

theorem listDom_eq_order {order : α → α → Bool} {data : List α} {i j : Nat} {a b : α}
    (ha : data[i]? = some a) (hb : data[j]? = some b) :
    listDom order data i j = order a b := by
  unfold listDom
  rw [ha, hb]

theorem listDom_eq_true_elim {order : α → α → Bool} {data : List α} {i j : Nat}
    (h : listDom order data i j = true) :
    ∃ a b, data[i]? = some a ∧ data[j]? = some b ∧ order a b = true := by
  unfold listDom at h
  split at h
  · next a b ha hb => exact ⟨a, b, ha, hb, h⟩
  · exact absurd h (by simp)

theorem order_dom_trans {order : α → α → Bool} (hA : DomAsymm order)
    (hN : DomNegTrans order) {a b c : α} (hab : order a b = true)
    (hbc : order b c = true) : order a c = true := by
  rcases hN b a c hbc with h | h
  · rw [hA a b hab] at h
    exact absurd h (by simp)
  · exact h

theorem order_notDom_trans {order : α → α → Bool} (hN : DomNegTrans order)
    {a b c : α} (hba : order b a = false) (hcb : order c b = false) :
    order c a = false := by
  cases hca : order c a with
  | false => rfl
  | true =>
    rcases hN c b a hca with h | h
    · rw [hcb] at h; exact absurd h (by simp)
    · rw [hba] at h; exact absurd h (by simp)

theorem listDom_irrefl {order : α → α → Bool} (hA : DomAsymm order)
    (data : List α) (i : Nat) : listDom order data i i = false := by
  cases h : data[i]? with
  | none => unfold listDom; rw [h]
  | some a =>
    rw [listDom_eq_order h h]
    cases hab : order a a with
    | false => rfl
    | true =>
      have hfalse := hA a a hab
      rw [hab] at hfalse
      exact hfalse

theorem listDom_asymm {order : α → α → Bool} (hA : DomAsymm order)
    {data : List α} {i j : Nat} (h : listDom order data i j = true) :
    listDom order data j i = false := by
  obtain ⟨a, b, ha, hb, hab⟩ := listDom_eq_true_elim h
  rw [listDom_eq_order hb ha]
  exact hA a b hab

theorem listDom_dom_trans {order : α → α → Bool} (hA : DomAsymm order)
    (hN : DomNegTrans order) {data : List α} {i j k : Nat}
    (hij : listDom order data i j = true) (hjk : listDom order data j k = true) :
    listDom order data i k = true := by
  obtain ⟨a, b, ha, hb, hab⟩ := listDom_eq_true_elim hij
  obtain ⟨b2, c, hb2, hc, hbc⟩ := listDom_eq_true_elim hjk
  rw [hb] at hb2
  cases hb2
  rw [listDom_eq_order ha hc]
  exact order_dom_trans hA hN hab hbc

theorem listDom_notDom_trans {order : α → α → Bool} (hN : DomNegTrans order)
    {data : List α} {i j k : Nat} (hj : j < data.length)
    (hij : listDom order data i j = false) (hjk : listDom order data j k = false) :
    listDom order data i k = false := by
  cases hik : listDom order data i k with
  | false => rfl
  | true =>
    obtain ⟨a, c, ha, hc, hac⟩ := listDom_eq_true_elim hik
    have hb : data[j]? = some (data.get ⟨j, hj⟩) := by
      simp [List.getElem?_eq_getElem hj]
    rw [listDom_eq_order ha hb] at hij
    rw [listDom_eq_order hb hc] at hjk
    rcases hN a (data.get ⟨j, hj⟩) c hac with h | h
    · rw [hij] at h; exact absurd h (by simp)
    · rw [hjk] at h; exact absurd h (by simp)

theorem listDom_negtrans {order : α → α → Bool} (hN : DomNegTrans order)
    {data : List α} {i j k : Nat} (hj : j < data.length)
    (hik : listDom order data i k = true) :
    listDom order data i j = true ∨ listDom order data j k = true := by
  obtain ⟨a, c, ha, hc, hac⟩ := listDom_eq_true_elim hik
  have hb : data[j]? = some (data.get ⟨j, hj⟩) := by
    simp [List.getElem?_eq_getElem hj]
  rw [listDom_eq_order ha hb, listDom_eq_order hb hc]
  exact hN a (data.get ⟨j, hj⟩) c hac

theorem listSwap_getElem? (data : List α) (i j k : Nat)
    (hi : i < data.length) (hj : j < data.length) :
    (listSwap data i j)[k]? = data[swapIdx i j k]? := by
  unfold listSwap swapIdx
  rw [List.getElem?_eq_getElem hi, List.getElem?_eq_getElem hj]
  by_cases hki : k = i
  · by_cases hkj : k = j
    · subst hki
      subst hkj
      simp [List.getElem_set, List.getElem?_eq_getElem, hi]
    · have hji : j ≠ i := fun h => hkj (hki.trans h.symm)
      simp only [hki, hkj, if_pos rfl, if_neg hkj]
      simp [List.getElem_set, hji, List.getElem?_eq_getElem, hi, hj]
  · by_cases hkj : k = j
    · simp only [hki, hkj, if_neg hki, if_pos rfl]
      rcases eq_or_ne j i with h | h <;>
        simp [h, List.getElem_set, List.getElem?_eq_getElem, hi, hj]
    · simp only [if_neg hki, if_neg hkj]
      rw [List.getElem?_set_ne (fun h => hkj h.symm), List.getElem?_set_ne (fun h => hki h.symm)]

theorem listDom_listSwap {order : α → α → Bool} (data : List α) {i j : Nat} (a b : Nat)
    (hi : i < data.length) (hj : j < data.length) :
    listDom order (listSwap data i j) a b
      = listDom order data (swapIdx i j a) (swapIdx i j b) := by
  unfold listDom
  rw [listSwap_getElem? data i j a hi hj, listSwap_getElem? data i j b hi hj]

theorem set_perm_cons_eraseIdx :
    ∀ (l : List α) (i : Nat) (a : α), i < l.length → (l.set i a).Perm (a :: l.eraseIdx i)
  | x :: xs, 0, a, _ => by simp
  | x :: xs, i + 1, a, h => by
    have ih := set_perm_cons_eraseIdx xs i a (by simpa using h)
    simp only [List.set_cons_succ, List.eraseIdx_cons_succ]
    exact (ih.cons x).trans (List.Perm.swap a x _)

theorem perm_cons_eraseIdx :
    ∀ (l : List α) (i : Nat) (b : α), l[i]? = some b → l.Perm (b :: l.eraseIdx i)
  | x :: xs, 0, b, h => by
    simp only [List.getElem?_cons_zero, Option.some.injEq] at h
    subst h
    simp
  | x :: xs, i + 1, b, h => by
    have ih := perm_cons_eraseIdx xs i b (by simpa using h)
    simp only [List.eraseIdx_cons_succ]
    exact (ih.cons x).trans (List.Perm.swap b x _)

theorem listSwap_perm : ∀ (data : List α) (i j : Nat), (listSwap data i j).Perm data := by
  intro data
  induction data with
  | nil => intro i j; unfold listSwap; simp
  | cons x xs ih =>
    intro i j
    unfold listSwap
    rcases i with _ | i
    · rcases j with _ | j
      · simp
      · cases hxj : xs[j]? with
        | none => simp [hxj]
        | some b =>
          simp only [List.getElem?_cons_zero, List.getElem?_cons_succ, hxj,
            List.set_cons_zero, List.set_cons_succ]
          have h1 := set_perm_cons_eraseIdx xs j x (List.getElem?_eq_some_iff.mp hxj).1
          have h2 := perm_cons_eraseIdx xs j b hxj
          exact ((h1.cons b).trans (List.Perm.swap x b _)).trans (h2.cons x).symm
    · rcases j with _ | j
      · cases hxi : xs[i]? with
        | none => simp [hxi]
        | some a =>
          simp only [List.getElem?_cons_zero, List.getElem?_cons_succ, hxi,
            List.set_cons_zero, List.set_cons_succ]
          have h1 := set_perm_cons_eraseIdx xs i x (List.getElem?_eq_some_iff.mp hxi).1
          have h2 := perm_cons_eraseIdx xs i a hxi
          exact ((h1.cons a).trans (List.Perm.swap x a _)).trans (h2.cons x).symm
      · have hrec := ih i j
        unfold listSwap at hrec
        cases hxi : xs[i]? with
        | none => simp [hxi]
        | some a =>
          cases hxj : xs[j]? with
          | none => simp [hxi, hxj]
          | some b =>
            rw [hxi, hxj] at hrec
            simp only [List.getElem?_cons_succ, hxi, hxj, List.set_cons_succ]
            exact hrec.cons x

theorem swap_remove_eq_none {data : List α} {index : Nat} (h : data.length ≤ index) :
    swap_remove data index = none := by
  unfold swap_remove
  rw [List.getElem?_eq_none h]

theorem swap_remove_out_eq (data : List α) (index : Nat) (last : α) :
    (data.set index last).dropLast = data.dropLast.set index last := by
  rw [List.dropLast_eq_take, List.dropLast_eq_take, List.length_set, List.set_take]

theorem swap_remove_spec {data : List α} {index : Nat} (hi : index < data.length) :
    ∃ ret out, swap_remove data index = some (ret, out) ∧
      data[index]? = some ret ∧
      out.length = data.length - 1 ∧
      (∀ k, out[k]? = if k < data.length - 1 then
          (if k = index then data[data.length - 1]? else data[k]?) else none) ∧
      data.Perm (ret :: out) := by
  have hne : data ≠ [] := by
    intro hnil
    rw [hnil] at hi
    simp at hi
  have hlast : data.getLast? = some (data.getLast hne) := List.getLast?_eq_getLast data hne
  set last := data.getLast hne with hlastdef
  set n := data.length with hn
  have hlastElem : data[n - 1]? = some last := by
    rw [← List.getLast?_eq_getElem?]
    exact hlast
  refine ⟨data[index], (data.set index last).dropLast, ?_, List.getElem?_eq_getElem hi, ?_, ?_, ?_⟩
  · unfold swap_remove
    rw [List.getElem?_eq_getElem hi, hlast]
  · simp [← hn]
  · intro k
    rw [swap_remove_out_eq]
    by_cases hk : k < n - 1
    · rw [if_pos hk]
      have hkd : k < data.dropLast.length := by
        rw [List.length_dropLast]
        omega
      by_cases hki : k = index
      · subst hki
        rw [List.getElem?_set_self hkd, hlastElem, if_pos rfl]
      · rw [List.getElem?_set_ne (fun h => hki h.symm)]
        rw [List.dropLast_eq_take, List.getElem?_take_of_lt hk, if_neg hki]
    · rw [if_neg hk]
      apply List.getElem?_eq_none
      rw [List.length_set, List.length_dropLast]
      omega
  · have hsplit : data.dropLast ++ [last] = data :=
      List.dropLast_append_getLast? last hlast
    have pa : data.Perm (last :: data.dropLast) := by
      conv in data => rw [← hsplit]
      exact List.perm_append_singleton last data.dropLast
    rw [swap_remove_out_eq]
    by_cases hidx : index < n - 1
    · have hd : data.dropLast[index]? = some data[index] := by
        rw [List.dropLast_eq_take, List.getElem?_take_of_lt hidx,
          List.getElem?_eq_getElem hi]
      have hlen : index < data.dropLast.length := by
        rw [List.length_dropLast]
        omega
      have h1 := set_perm_cons_eraseIdx data.dropLast index last hlen
      have h2 := perm_cons_eraseIdx data.dropLast index data[index] hd
      exact pa.trans ((h2.cons last).trans
        ((List.Perm.swap data[index] last _).trans (h1.symm.cons data[index])))
    · have hieq : index = n - 1 := by omega
      have hset : data.dropLast.set index last = data.dropLast := by
        apply List.set_eq_of_length_le
        rw [List.length_dropLast]
        omega
      have hretlast : data[index] = last := by
        have := hlastElem
        rw [← hieq, List.getElem?_eq_getElem hi] at this
        exact (Option.some.injEq _ _).mp this
      rw [hset, hretlast]
      exact pa

theorem pick_highest_spec {order : α → α → Bool} (hA : DomAsymm order)
    (hN : DomNegTrans order) (data : List α) (cur : Nat) :
    (pick_highest data cur order = cur ∧
      ∀ c, c < data.length → (c = 2 * cur + 1 ∨ c = 2 * cur + 2) →
        listDom order data c cur = false) ∨
    (cur < pick_highest data cur order ∧ pick_highest data cur order < data.length ∧
      (pick_highest data cur order = 2 * cur + 1 ∨ pick_highest data cur order = 2 * cur + 2) ∧
      listDom order data (pick_highest data cur order) cur = true ∧
      ∀ c, c < data.length → (c = 2 * cur + 1 ∨ c = 2 * cur + 2) →
        c ≠ pick_highest data cur order →
        listDom order data c (pick_highest data cur order) = false) := by
  simp only [pick_highest]
  split_ifs with h1 h2 h2
  · simp only [Bool.and_eq_true, decide_eq_true_eq] at h1 h2
    refine Or.inr ⟨by omega, by omega, Or.inr rfl,
      listDom_dom_trans hA hN h2.2 h1.2, ?_⟩
    intro c hc hcc hcne
    have hcl : c = 2 * cur + 1 := by omega
    subst hcl
    exact listDom_asymm hA h2.2
  · simp only [Bool.and_eq_true, decide_eq_true_eq, not_and] at h1 h2
    refine Or.inr ⟨by omega, by omega, Or.inl rfl, h1.2, ?_⟩
    intro c hc hcc hcne
    have hcr : c = 2 * cur + 2 := by omega
    subst hcr
    have := h2 (by omega)
    simpa using this
  · simp only [Bool.and_eq_true, decide_eq_true_eq, not_and] at h1 h2
    refine Or.inr ⟨by omega, by omega, Or.inr rfl, h2.2, ?_⟩
    intro c hc hcc hcne
    have hcl : c = 2 * cur + 1 := by omega
    subst hcl
    cases hlr : listDom order data (2 * cur + 1) (2 * (cur + 1)) with
    | false => rfl
    | true =>
      have hlc := listDom_dom_trans hA hN hlr h2.2
      have hfalse := h1 (by omega)
      rw [show 2 * (cur + 1) - 1 = 2 * cur + 1 from by omega] at hfalse
      exact absurd hlc hfalse
  · simp only [Bool.and_eq_true, decide_eq_true_eq, not_and] at h1 h2
    refine Or.inl ⟨rfl, ?_⟩
    intro c hc hcc
    rcases hcc with hcl | hcr
    · subst hcl
      have := h1 (by omega)
      simpa using this
    · subst hcr
      have := h2 (by omega)
      simpa using this

theorem heapify_down_perm_fuel {order : α → α → Bool} :
    ∀ (fuel : Nat) (data : List α) (top : Nat), data.length - top ≤ fuel →
      (heapify_down data top order).Perm data := by
  intro fuel
  induction fuel with
  | zero =>
    intro data top hf
    rw [heapify_down]
    split
    · next hne =>
      exfalso
      have := pick_highest_ne data top order hne
      omega
    · exact List.Perm.refl data
  | succ m IH =>
    intro data top hf
    rw [heapify_down]
    split
    · next hne =>
      have hp := pick_highest_ne data top order hne
      have hlen := listSwap_length data top (pick_highest data top order)
      exact (IH _ _ (by omega)).trans (listSwap_perm data top (pick_highest data top order))
    · exact List.Perm.refl data

theorem heapify_down_perm {order : α → α → Bool} (data : List α) (top : Nat) :
    (heapify_down data top order).Perm data :=
  heapify_down_perm_fuel data.length data top (by omega)

theorem heapify_down_length {order : α → α → Bool} (data : List α) (top : Nat) :
    (heapify_down data top order).length = data.length :=
  (heapify_down_perm data top).length_eq

theorem heapify_up_perm {order : α → α → Bool} :
    ∀ (pos : Nat) (data : List α), (heapify_up data pos order).Perm data := by
  intro pos
  induction pos using Nat.strong_induction_on with
  | _ pos IH =>
    intro data
    rw [heapify_up]
    split
    · next hpos =>
      dsimp only
      split
      · exact List.Perm.refl data
      · exact (IH _ (by omega) _).trans (listSwap_perm data ((pos - 1) / 2) pos)
    · exact List.Perm.refl data

theorem heapify_up_length {order : α → α → Bool} (data : List α) (pos : Nat) :
    (heapify_up data pos order).length = data.length :=
  (heapify_up_perm pos data).length_eq

theorem heapify_range_perm {order : α → α → Bool} :
    ∀ (m : Nat) (data : List α), (heapify_range data order m).Perm data := by
  intro m
  induction m with
  | zero => intro data; exact List.Perm.refl data
  | succ m IH =>
    intro data
    rw [heapify_range]
    exact (IH _).trans (heapify_down_perm data m)

theorem heapify_in_place_perm {order : α → α → Bool} (data : List α) :
    (heapify_in_place data order).Perm data :=
  heapify_range_perm _ data

theorem swapIdx_left (i j : Nat) : swapIdx i j i = j := by
  unfold swapIdx
  rw [if_pos rfl]

theorem swapIdx_right (i j : Nat) : swapIdx i j j = i := by
  unfold swapIdx
  by_cases h : j = i
  · rw [if_pos h, h]
  · rw [if_neg h, if_pos rfl]

theorem swapIdx_other {i j k : Nat} (h1 : k ≠ i) (h2 : k ≠ j) : swapIdx i j k = k := by
  unfold swapIdx
  rw [if_neg h1, if_neg h2]

/-- Correctness of sift-up: if every parent-child edge holds except possibly
the one from `pos` up to its parent, and in addition the elements below `pos`
could sit below `pos`'s parent as well (the grandparent bridge), then
`heapify_up` establishes the full heap property. -/
theorem heapify_up_heapProp {order : α → α → Bool} (hA : DomAsymm order)
    (hN : DomNegTrans order) :
    ∀ (pos : Nat) (data : List α), pos < data.length →
      (∀ i, i < data.length → 0 < i → i ≠ pos →
        listDom order data i ((i - 1) / 2) = false) →
      (∀ c, c < data.length → (c = 2 * pos + 1 ∨ c = 2 * pos + 2) → 0 < pos →
        listDom order data c ((pos - 1) / 2) = false) →
      heapProp order (heapify_up data pos order) := by
  intro pos
  induction pos using Nat.strong_induction_on with
  | _ pos IH =>
    intro data hlen hEx hBr
    rw [heapify_up]
    split
    · next hpos =>
      dsimp only
      split
      · next hd =>
        intro i hi h0
        by_cases hip : i = pos
        · subst hip
          exact listDom_asymm hA hd
        · exact hEx i hi h0 hip
      · next hd =>
        have hdFalse : listDom order data ((pos - 1) / 2) pos = false := by
          cases hval : listDom order data ((pos - 1) / 2) pos with
          | false => rfl
          | true => exact absurd hval hd
        have hplt : (pos - 1) / 2 < data.length := by omega
        apply IH ((pos - 1) / 2) (by omega)
        · rw [listSwap_length]
          omega
        · intro i hi h0 hip
          rw [listSwap_length] at hi
          rw [listDom_listSwap data i ((i - 1) / 2) hplt hlen]
          by_cases hiq : i = pos
          · subst hiq
            rw [swapIdx_right, swapIdx_left]
            exact hdFalse
          · have hine : i ≠ (pos - 1) / 2 := hip
            rw [swapIdx_other hine hiq]
            by_cases hpc : (i - 1) / 2 = pos
            · rw [hpc, swapIdx_right]
              exact hBr i hi (by omega) hpos
            · by_cases hpp : (i - 1) / 2 = (pos - 1) / 2
              · rw [hpp, swapIdx_left]
                have h1 : listDom order data i ((pos - 1) / 2) = false := by
                  have := hEx i hi h0 hiq
                  rw [hpp] at this
                  exact this
                exact listDom_notDom_trans hN hplt h1 hdFalse
              · rw [swapIdx_other hpp hpc]
                exact hEx i hi h0 hiq
        · intro c hc hcc hppos
          rw [listSwap_length] at hc
          rw [listDom_listSwap data c (((pos - 1) / 2 - 1) / 2) hplt hlen]
          have hglt : ((pos - 1) / 2 - 1) / 2 < data.length := by omega
          have hgne1 : ((pos - 1) / 2 - 1) / 2 ≠ (pos - 1) / 2 := by omega
          have hgne2 : ((pos - 1) / 2 - 1) / 2 ≠ pos := by omega
          rw [swapIdx_other hgne1 hgne2]
          by_cases hcq : c = pos
          · rw [hcq, swapIdx_right]
            exact hEx ((pos - 1) / 2) hplt hppos (by omega)
          · have hcnp : c ≠ (pos - 1) / 2 := by omega
            rw [swapIdx_other hcnp hcq]
            have h1 : listDom order data c ((pos - 1) / 2) = false := by
              have := hEx c hc (by omega) hcq
              rw [show (c - 1) / 2 = (pos - 1) / 2 from by omega] at this
              exact this
            have h2 := hEx ((pos - 1) / 2) hplt hppos (by omega)
            exact listDom_notDom_trans hN hplt h1 h2
    · next hpos =>
      intro i hi h0
      exact hEx i hi h0 (by omega)

/-- Correctness of sift-down, relativized to edges with parent index at least
`k`: if those edges hold except possibly the ones leaving `cur` downward, and
the elements below `cur` could sit below `cur`'s parent (the grandparent
bridge), then `heapify_down` establishes `heapBelow k`. -/
theorem heapify_down_heapBelow {order : α → α → Bool} (hA : DomAsymm order)
    (hN : DomNegTrans order) (k : Nat) :
    ∀ (fuel : Nat) (data : List α) (cur : Nat), data.length - cur ≤ fuel →
      (∀ i, i < data.length → 0 < i → k ≤ (i - 1) / 2 → (i - 1) / 2 ≠ cur →
        listDom order data i ((i - 1) / 2) = false) →
      (∀ c, c < data.length → (c = 2 * cur + 1 ∨ c = 2 * cur + 2) → 0 < cur →
        k ≤ (cur - 1) / 2 →
        listDom order data c ((cur - 1) / 2) = false) →
      heapBelow k order (heapify_down data cur order) := by
  intro fuel
  induction fuel with
  | zero =>
    intro data cur hf hAa hBb
    rw [heapify_down]
    split
    · next hne =>
      exfalso
      have := pick_highest_ne data cur order hne
      omega
    · intro i hi h0 hk
      by_cases hic : (i - 1) / 2 = cur
      · omega
      · exact hAa i hi h0 hk hic
  | succ m IH =>
    intro data cur hf hAa hBb
    rw [heapify_down]
    split
    · next hne =>
      have hp := pick_highest_ne data cur order hne
      rcases pick_highest_spec hA hN data cur with ⟨heq, _⟩ | ⟨hlt, hclen, hcc, hwin, hother⟩
      · exact absurd heq hne
      · have hcurlt : cur < data.length := by omega
        apply IH
        · rw [listSwap_length]
          omega
        · intro i hi h0 hk hip
          rw [listSwap_length] at hi
          rw [listDom_listSwap data i ((i - 1) / 2) hcurlt hclen]
          by_cases hic : i = pick_highest data cur order
          · rw [hic, show (pick_highest data cur order - 1) / 2 = cur from by omega,
              swapIdx_right, swapIdx_left]
            exact listDom_asymm hA hwin
          · by_cases hicur : i = cur
            · rw [hicur, swapIdx_left,
                swapIdx_other (show (cur - 1) / 2 ≠ cur from by omega)
                  (show (cur - 1) / 2 ≠ pick_highest data cur order from by omega)]
              refine hBb (pick_highest data cur order) hclen hcc (by omega) ?_
              rw [← hicur]
              exact hk
            · rw [swapIdx_other hicur hic]
              by_cases hpcur : (i - 1) / 2 = cur
              · rw [hpcur, swapIdx_left]
                exact hother i hi (by omega) hic
              · rw [swapIdx_other hpcur hip]
                exact hAa i hi h0 hk hpcur
        · intro cc hcc2 hccch hc0 hkc
          rw [listSwap_length] at hcc2
          rw [listDom_listSwap data cc ((pick_highest data cur order - 1) / 2) hcurlt hclen]
          have hpar : (pick_highest data cur order - 1) / 2 = cur := by omega
          rw [swapIdx_other (show cc ≠ cur from by omega)
            (show cc ≠ pick_highest data cur order from by omega), hpar, swapIdx_left]
          have hres := hAa cc hcc2 (by omega)
            (show k ≤ (cc - 1) / 2 from by omega)
            (show (cc - 1) / 2 ≠ cur from by omega)
          rw [show (cc - 1) / 2 = pick_highest data cur order from by omega] at hres
          exact hres
    · next hne =>
      have hpick : pick_highest data cur order = cur := not_not.mp hne
      rcases pick_highest_spec hA hN data cur with ⟨_, hstop⟩ | ⟨hlt, _⟩
      · intro i hi h0 hk
        by_cases hic : (i - 1) / 2 = cur
        · have hi2 : i = 2 * cur + 1 ∨ i = 2 * cur + 2 := by omega
          rw [hic]
          exact hstop i hi hi2
        · exact hAa i hi h0 hk hic
      · exact absurd hpick (by omega)

theorem heapProp_iff_heapBelow_zero {order : α → α → Bool} (data : List α) :
    heapProp order data ↔ heapBelow 0 order data := by
  constructor
  · intro h i hi h0 _
    exact h i hi h0
  · intro h i hi h0
    exact h i hi h0 (Nat.zero_le _)

theorem heapify_range_heapBelow {order : α → α → Bool} (hA : DomAsymm order)
    (hN : DomNegTrans order) :
    ∀ (m : Nat) (data : List α), heapBelow m order data →
      heapBelow 0 order (heapify_range data order m) := by
  intro m
  induction m with
  | zero => intro data h; exact h
  | succ m IH =>
    intro data h
    rw [heapify_range]
    apply IH
    apply heapify_down_heapBelow hA hN m data.length data m (by omega)
    · intro i hi h0 hk hip
      exact h i hi h0 (by omega)
    · intro c hc hcc hc0 hkc
      omega

/-- Bulk heapify establishes the heap property for any strict-weak-order
strategy. -/
theorem heapify_in_place_heapProp {order : α → α → Bool} (hA : DomAsymm order)
    (hN : DomNegTrans order) (data : List α) :
    heapProp order (heapify_in_place data order) := by
  rw [heapProp_iff_heapBelow_zero]
  apply heapify_range_heapBelow hA hN
  intro i hi h0 hk
  omega

theorem listDom_append_left {order : α → α → Bool} (data : List α) (v : α) {i j : Nat}
    (hi : i < data.length) (hj : j < data.length) :
    listDom order (data ++ [v]) i j = listDom order data i j := by
  unfold listDom
  rw [List.getElem?_append_left hi, List.getElem?_append_left hj]

/-- Insertion preserves the heap property. -/
theorem insert_heapProp {order : α → α → Bool} (hA : DomAsymm order)
    (hN : DomNegTrans order) {data : List α} (hp : heapProp order data) (v : α) :
    heapProp order ((Heap.mk data order).insert v).data := by
  show heapProp order (heapify_up (data ++ [v]) data.length order)
  apply heapify_up_heapProp hA hN data.length (data ++ [v]) (by simp)
  · intro i hi h0 hip
    rw [List.length_append, List.length_singleton] at hi
    have hilt : i < data.length := by omega
    have hplt : (i - 1) / 2 < data.length := by omega
    rw [listDom_append_left data v hilt hplt]
    exact hp i hilt h0
  · intro c hc hcc hpos
    rw [List.length_append, List.length_singleton] at hc
    omega

theorem insert_data_perm {order : α → α → Bool} (data : List α) (v : α) :
    ((Heap.mk data order).insert v).data.Perm (data ++ [v]) := by
  show (heapify_up (data ++ [v]) data.length order).Perm (data ++ [v])
  exact heapify_up_perm data.length (data ++ [v])

theorem insert_data_length {order : α → α → Bool} (data : List α) (v : α) :
    ((Heap.mk data order).insert v).data.length = data.length + 1 := by
  have := (@insert_data_perm _ order data v).length_eq
  rw [this, List.length_append, List.length_singleton]

/-- Full correctness of arbitrary-index removal on inputs where the source
does not panic: the value previously at `index` is returned, the length
shrinks by one, the heap property is preserved, and no element other than
the returned one is gained or lost. -/
theorem remove_spec {order : α → α → Bool} (hA : DomAsymm order) (hN : DomNegTrans order)
    {data : List α} (hp : heapProp order data) {index : Nat}
    (hi : index < data.length) (hok : data.length = 1 ∨ index + 1 < data.length) :
    ∃ ret out, (Heap.mk data order).remove index = some (ret, Heap.mk out order) ∧
      data[index]? = some ret ∧
      out.length = data.length - 1 ∧
      heapProp order out ∧
      data.Perm (ret :: out) := by
  obtain ⟨ret, out0, hsr, hretEq, hlen0, hchar, hperm⟩ := swap_remove_spec hi
  by_cases hn1 : data.length = 1
  · -- the removed element was the only element: the shrunk vector is empty
    have hout0 : out0 = [] := List.eq_nil_of_length_eq_zero (by omega)
    subst hout0
    refine ⟨ret, [], ?_, hretEq, by omega, ?_, hperm⟩
    · simp [Heap.remove, hsr]
    · intro i hilt h0
      simp at hilt
  · have hidx1 : index + 1 < data.length := by
      rcases hok with h | h
      · omega
      · exact h
    have hn2 : 2 ≤ data.length := by omega
    have hlenO : out0.length = data.length - 1 := hlen0
    have hie : out0.isEmpty = false := by
      cases out0 with
      | nil =>
        simp at hlenO
        omega
      | cons y ys => rfl
    have hnm1 : data.length - 1 < data.length := by omega
    have hlastSome : data[data.length - 1]? = some (data.get ⟨data.length - 1, hnm1⟩) := by
      simp [List.getElem?_eq_getElem hnm1]
    set dl := data.get ⟨data.length - 1, hnm1⟩ with hdl
    have hx : out0[index]? = some dl := by
      rw [hchar index, if_pos (by omega), if_pos rfl]
      exact hlastSome
    have hgetO : ∀ a, a < data.length - 1 →
        out0[a]? = data[(if a = index then data.length - 1 else a)]? := by
      intro a ha
      rw [hchar a, if_pos ha]
      by_cases hai : a = index
      · rw [if_pos hai, if_pos hai]
      · rw [if_neg hai, if_neg hai]
    have hdom : ∀ a b, a < data.length - 1 → b < data.length - 1 →
        listDom order out0 a b
          = listDom order data (if a = index then data.length - 1 else a)
              (if b = index then data.length - 1 else b) := by
      intro a b ha hb
      unfold listDom
      rw [hgetO a ha, hgetO b hb]
    have hDomUp : listDom order data (data.length - 1) index = order dl ret :=
      listDom_eq_order hlastSome hretEq
    have hDomDown : listDom order data index (data.length - 1) = order ret dl :=
      listDom_eq_order hretEq hlastSome
    have hbridge : ∀ c, c < data.length - 1 →
        (c = 2 * index + 1 ∨ c = 2 * index + 2) → 0 < index →
        listDom order data c ((index - 1) / 2) = false := by
      intro c hc hcc h0
      have h1 : listDom order data c index = false := by
        have := hp c (by omega) (by omega)
        rw [show (c - 1) / 2 = index from by omega] at this
        exact this
      have h2 : listDom order data index ((index - 1) / 2) = false :=
        hp index (by omega) h0
      exact listDom_notDom_trans hN (by omega) h1 h2
    by_cases hUp : order dl ret = true
    · refine ⟨ret, heapify_up out0 index order, ?_, hretEq, ?_, ?_, ?_⟩
      · simp [Heap.remove, hsr, hie, hx, hUp]
      · rw [heapify_up_length, hlenO]
      · apply heapify_up_heapProp hA hN index out0 (by omega)
        · intro i hilt h0 hip
          rw [hlenO] at hilt
          rw [hdom i ((i - 1) / 2) hilt (by omega), if_neg hip]
          by_cases hpidx : (i - 1) / 2 = index
          · rw [if_pos hpidx]
            cases hval : listDom order data i (data.length - 1) with
            | false => rfl
            | true =>
              have htr := listDom_dom_trans hA hN hval (hDomUp.trans hUp)
              have hedge := hp i (by omega) h0
              rw [hpidx] at hedge
              exact absurd htr (by rw [hedge]; simp)
          · rw [if_neg hpidx]
            exact hp i (by omega) h0
        · intro c hc hcc h0
          rw [hlenO] at hc
          have hcne : c ≠ index := by omega
          have hpne : (index - 1) / 2 ≠ index := by omega
          rw [hdom c ((index - 1) / 2) hc (by omega), if_neg hcne, if_neg hpne]
          exact hbridge c hc hcc h0
      · exact hperm.trans ((heapify_up_perm index out0).symm.cons ret)
    · have hUpF : order dl ret = false := by
        cases h : order dl ret with
        | false => rfl
        | true => exact absurd h hUp
      by_cases hDown : order ret dl = true
      · refine ⟨ret, heapify_down out0 index order, ?_, hretEq, ?_, ?_, ?_⟩
        · simp [Heap.remove, hsr, hie, hx, hUpF, hDown]
        · rw [heapify_down_length, hlenO]
        · rw [heapProp_iff_heapBelow_zero]
          apply heapify_down_heapBelow hA hN 0 out0.length out0 index (by omega)
          · intro i hilt h0 _ hip
            rw [hlenO] at hilt
            rw [hdom i ((i - 1) / 2) hilt (by omega), if_neg (by omega : (i - 1) / 2 ≠ index)]
            by_cases hiidx : i = index
            · rw [if_pos hiidx]
              cases hval : listDom order data (data.length - 1) ((i - 1) / 2) with
              | false => rfl
              | true =>
                rcases listDom_negtrans hN (by omega : index < data.length) hval with hc | hc
                · rw [hDomUp] at hc
                  rw [hc] at hUpF
                  exact absurd hUpF (by simp)
                · have h0idx : 0 < index := by omega
                  have hedge := hp index (by omega) h0idx
                  rw [show (index - 1) / 2 = (i - 1) / 2 from by rw [hiidx]] at hedge
                  exact absurd hc (by rw [hedge]; simp)
            · rw [if_neg hiidx]
              exact hp i (by omega) h0
          · intro c hc hcc h0 _
            rw [hlenO] at hc
            have hcne : c ≠ index := by omega
            have hpne : (index - 1) / 2 ≠ index := by omega
            rw [hdom c ((index - 1) / 2) hc (by omega), if_neg hcne, if_neg hpne]
            exact hbridge c hc hcc h0
        · exact hperm.trans ((heapify_down_perm out0 index).symm.cons ret)
      · have hDownF : order ret dl = false := by
          cases h : order ret dl with
          | false => rfl
          | true => exact absurd h hDown
        refine ⟨ret, out0, ?_, hretEq, hlenO, ?_, hperm⟩
        · simp [Heap.remove, hsr, hie, hx, hUpF, hDownF]
        · intro i hilt h0
          rw [hlenO] at hilt
          rw [hdom i ((i - 1) / 2) hilt (by omega)]
          by_cases hiidx : i = index
          · rw [if_pos hiidx, if_neg (by omega : (i - 1) / 2 ≠ index)]
            cases hval : listDom order data (data.length - 1) ((i - 1) / 2) with
            | false => rfl
            | true =>
              rcases listDom_negtrans hN (by omega : index < data.length) hval with hc | hc
              · rw [hDomUp] at hc
                rw [hc] at hUpF
                exact absurd hUpF (by simp)
              · have h0idx : 0 < index := by omega
                have hedge := hp index (by omega) h0idx
                rw [show (index - 1) / 2 = (i - 1) / 2 from by rw [hiidx]] at hedge
                exact absurd hc (by rw [hedge]; simp)
          · rw [if_neg hiidx]
            by_cases hpidx : (i - 1) / 2 = index
            · rw [if_pos hpidx]
              cases hval : listDom order data i (data.length - 1) with
              | false => rfl
              | true =>
                rcases listDom_negtrans hN (by omega : index < data.length) hval with hc | hc
                · have hedge := hp i (by omega) h0
                  rw [hpidx] at hedge
                  exact absurd hc (by rw [hedge]; simp)
                · rw [hDomDown] at hc
                  rw [hc] at hDownF
                  exact absurd hDownF (by simp)
            · rw [if_neg hpidx]
              exact hp i (by omega) h0

/-- In a valid heap no element dominates the root: extracting at index 0
yields a dominant element. -/
theorem heapProp_root_min {order : α → α → Bool} (hA : DomAsymm order)
    (hN : DomNegTrans order) {data : List α} (hp : heapProp order data) :
    ∀ i, i < data.length → listDom order data i 0 = false := by
  intro i
  induction i using Nat.strong_induction_on with
  | _ i IH =>
    intro hi
    rcases Nat.eq_zero_or_pos i with h0 | h0
    · subst h0
      exact listDom_irrefl hA data 0
    · have hedge := hp i hi h0
      have hpar := IH ((i - 1) / 2) (by omega) (by omega)
      exact listDom_notDom_trans hN (by omega) hedge hpar

theorem remove_oob {h : Heap α} {index : Nat} (hge : h.data.length ≤ index) :
    h.remove index = none := by
  unfold Heap.remove
  rw [swap_remove_eq_none hge]

theorem remove_some_length {h : Heap α} {index : Nat} {v : α} {h2 : Heap α}
    (hr : h.remove index = some (v, h2)) :
    h2.data.length + 1 = h.data.length := by
  unfold Heap.remove at hr
  split at hr
  · exact absurd hr (by simp)
  · next ret out heq =>
    have hout : out.length + 1 = h.data.length := by
      unfold swap_remove at heq
      split at heq
      · next a b ha hb =>
        have hlt : index < h.data.length := (List.getElem?_eq_some_iff.mp ha).1
        simp only [Option.some.injEq, Prod.mk.injEq] at heq
        rw [← heq.2]
        rw [List.length_dropLast, List.length_set]
        omega
      · exact absurd heq (by simp)
    split at hr
    · simp only [Option.some.injEq, Prod.mk.injEq] at hr
      rw [← hr.2]
      exact hout
    · split at hr
      · exact absurd hr (by simp)
      · split at hr
        · simp only [Option.some.injEq, Prod.mk.injEq] at hr
          rw [← hr.2]
          simp only [heapify_up_length]
          exact hout
        · split at hr
          · simp only [Option.some.injEq, Prod.mk.injEq] at hr
            rw [← hr.2]
            simp only [heapify_down_length]
            exact hout
          · simp only [Option.some.injEq, Prod.mk.injEq] at hr
            rw [← hr.2]
            exact hout

/-- The priority-queue extraction pattern of the external consumer: call
`remove(0)` repeatedly until the heap is empty (or until a removal fails),
collecting the returned roots. -/
def extract_all (h : Heap α) : List α :=
  match hr : h.remove 0 with
  | none => []
  | some (v, h2) =>
    v :: extract_all h2
termination_by h.data.length
decreasing_by
  have := remove_some_length hr
  omega

/-- Repeated root extraction from a valid heap yields a sequence sorted by
the complement of the dominance relation, and a permutation of the heap's
contents. -/
theorem extract_all_sorted {order : α → α → Bool} (hA : DomAsymm order)
    (hN : DomNegTrans order) :
    ∀ (n : Nat) (data : List α), data.length ≤ n → heapProp order data →
      List.Sorted (fun a b => order b a = false) (extract_all (Heap.mk data order)) ∧
      (extract_all (Heap.mk data order)).Perm data := by
  intro n
  induction n with
  | zero =>
    intro data hlen hp
    have hnil : data = [] := List.eq_nil_of_length_eq_zero (by omega)
    subst hnil
    rw [extract_all]
    have hnone : (Heap.mk ([] : List α) order).remove 0 = none := remove_oob (by simp)
    split
    · simp
    · next v h2 heq =>
      rw [hnone] at heq
      exact absurd heq (by simp)
  | succ n IH =>
    intro data hlen hp
    rw [extract_all]
    split
    · next heq =>
      rcases Nat.eq_zero_or_pos data.length with h0 | h0
      · have hnil : data = [] := List.eq_nil_of_length_eq_zero h0
        subst hnil
        simp
      · obtain ⟨ret, out, hsome2, _, _, _, _⟩ :=
          @remove_spec _ order hA hN data hp 0 h0 (by omega)
        rw [heq] at hsome2
        exact absurd hsome2 (by simp)
    · next v h2 heq =>
      have h0 : 0 < data.length := by
        by_contra hcon
        rw [remove_oob (show data.length ≤ 0 by omega)] at heq
        exact absurd heq (by simp)
      obtain ⟨ret, out, hsome2, hret, hlenOut, hpOut, hpermOut⟩ :=
        @remove_spec _ order hA hN data hp 0 h0 (by omega)
      rw [heq] at hsome2
      simp only [Option.some.injEq, Prod.mk.injEq] at hsome2
      obtain ⟨hveq, hheq⟩ := hsome2
      subst hveq
      subst hheq
      obtain ⟨hsorted, hperm2⟩ := IH out (by omega) hpOut
      have hmin : ∀ x ∈ data, order x v = false := by
        intro x hx
        obtain ⟨i, hxi⟩ := List.mem_iff_getElem?.mp hx
        have hilt : i < data.length := (List.getElem?_eq_some_iff.mp hxi).1
        have := heapProp_root_min hA hN hp i hilt
        rw [listDom_eq_order hxi hret] at this
        exact this
      constructor
      · rw [List.sorted_cons]
        refine ⟨?_, hsorted⟩
        intro b hb
        have hbo : b ∈ out := (hperm2.mem_iff).mp hb
        have hbd : b ∈ data := hpermOut.symm.mem_iff.mp (List.mem_cons_of_mem v hbo)
        exact hmin b hbd
      · exact (hperm2.cons v).trans hpermOut.symm

theorem minOrder_asymm [LinearOrder α] : DomAsymm (minOrder : α → α → Bool) := by
  intro a b hab
  simp only [minOrder, decide_eq_true_eq] at hab
  simp only [minOrder, decide_eq_false_iff_not]
  exact not_lt.mpr hab.le

theorem minOrder_negtrans [LinearOrder α] : DomNegTrans (minOrder : α → α → Bool) := by
  intro a b c hac
  simp only [minOrder, decide_eq_true_eq] at hac
  simp only [minOrder, decide_eq_true_eq]
  rcases lt_or_le a b with h | h
  · exact Or.inl h
  · exact Or.inr (lt_of_le_of_lt h hac)

theorem maxOrder_asymm [LinearOrder α] : DomAsymm (maxOrder : α → α → Bool) := by
  intro a b hab
  simp only [maxOrder, decide_eq_true_eq] at hab
  simp only [maxOrder, decide_eq_false_iff_not]
  exact not_lt.mpr hab.le

theorem maxOrder_negtrans [LinearOrder α] : DomNegTrans (maxOrder : α → α → Bool) := by
  intro a b c hac
  simp only [maxOrder, decide_eq_true_eq] at hac
  simp only [maxOrder, decide_eq_true_eq]
  rcases lt_or_le b a with h | h
  · exact Or.inl h
  · exact Or.inr (lt_of_lt_of_le hac h)

/-! ### Characterization of the source's `is_heap` -/

/-- Iterated parent function: `parentIter k x` walks `k` steps up the tree
from index `x`. -/
def parentIter : Nat → Nat → Nat
  | 0, x => x
  | k + 1, x => parentIter k ((x - 1) / 2)

theorem parentIter_succ_outer : ∀ (k x : Nat),
    parentIter (k + 1) x = (parentIter k x - 1) / 2 := by
  intro k
  induction k with
  | zero => intro x; rfl
  | succ k IH =>
    intro x
    show parentIter (k + 1) ((x - 1) / 2) = _
    rw [IH ((x - 1) / 2)]
    rfl

theorem parentIter_zero_base : ∀ k, parentIter k 0 = 0 := by
  intro k
  induction k with
  | zero => rfl
  | succ k IH =>
    show parentIter k ((0 - 1) / 2) = 0
    exact IH

theorem chain_ok_edges {order : α → α → Bool} {values : List α} :
    ∀ (pos : Nat), chain_ok values pos order = true →
      ∀ k, 0 < parentIter k pos →
        listDom order values ((parentIter k pos - 1) / 2) (parentIter k pos) = true := by
  intro pos
  induction pos using Nat.strong_induction_on with
  | _ pos IH =>
    intro hok k hk
    rw [chain_ok] at hok
    rcases Nat.eq_zero_or_pos pos with h0 | h0
    · subst h0
      rw [parentIter_zero_base k] at hk
      omega
    · rw [dif_pos h0] at hok
      dsimp only at hok
      rw [Bool.and_eq_true] at hok
      cases k with
      | zero => exact hok.1
      | succ k =>
        have : parentIter (k + 1) pos = parentIter k ((pos - 1) / 2) := rfl
        rw [this] at hk ⊢
        exact IH ((pos - 1) / 2) (by omega) hok.2 k hk

theorem reach_leaf (n : Nat) :
    ∀ (d i : Nat), n - i ≤ d → i < n →
      ¬(n % 2 = 1 ∧ i = (n - 1) / 2) →
      ∃ leaf k, (n + 1) / 2 ≤ leaf ∧ leaf < n ∧ parentIter k leaf = i := by
  intro d
  induction d with
  | zero => intro i hd hi hbad; omega
  | succ d IH =>
    intro i hd hi hbad
    by_cases hchild : 2 * i + 1 < n
    · by_cases hl : n % 2 = 1 ∧ 2 * i + 1 = (n - 1) / 2
      · -- the left child is the skipped childless node; descend right instead
        obtain ⟨leaf, k, hle, hlt, hpk⟩ := IH (2 * i + 2) (by omega) (by omega) (by omega)
        refine ⟨leaf, k + 1, hle, hlt, ?_⟩
        rw [parentIter_succ_outer, hpk]
        omega
      · obtain ⟨leaf, k, hle, hlt, hpk⟩ := IH (2 * i + 1) (by omega) (by omega) (by omega)
        refine ⟨leaf, k + 1, hle, hlt, ?_⟩
        rw [parentIter_succ_outer, hpk]
        omega
    · refine ⟨i, 0, by omega, hi, rfl⟩

theorem chain_ok_of_edges {order : α → α → Bool} {values : List α}
    (hyp : ∀ i, i < values.length → 0 < i →
      ¬(values.length % 2 = 1 ∧ i = (values.length - 1) / 2) →
      listDom order values ((i - 1) / 2) i = true) :
    ∀ pos, pos < values.length →
      (2 * pos + 1 < values.length ∨ (values.length + 1) / 2 ≤ pos) →
      chain_ok values pos order = true := by
  intro pos
  induction pos using Nat.strong_induction_on with
  | _ pos IH =>
    intro hlt hcond
    rw [chain_ok]
    rcases Nat.eq_zero_or_pos pos with h0 | h0
    · rw [dif_neg (by omega)]
    · rw [dif_pos h0]
      dsimp only
      rw [Bool.and_eq_true]
      constructor
      · exact hyp pos hlt h0 (by omega)
      · exact IH ((pos - 1) / 2) (by omega) (by omega) (Or.inl (by omega))

/-- What the source's `is_heap` actually decides: every parent strictly
dominates each of its children, except that for odd-length arrays the edge
into the childless node `(n-1)/2` is never inspected. -/
theorem is_heap_eq_true_iff {order : α → α → Bool} (values : List α) :
    is_heap values order = true ↔
      ∀ i, i < values.length → 0 < i →
        ¬(values.length % 2 = 1 ∧ i = (values.length - 1) / 2) →
        listDom order values ((i - 1) / 2) i = true := by
  unfold is_heap
  rw [List.all_eq_true]
  constructor
  · intro h i hi h0 hbad
    obtain ⟨leaf, k, hle, hlt, hpk⟩ :=
      reach_leaf values.length (values.length - i) i (by omega) hi hbad
    have hmem : leaf ∈ List.range' ((values.length + 1) / 2)
        (values.length - (values.length + 1) / 2) := by
      rw [List.mem_range']
      exact ⟨leaf - (values.length + 1) / 2, by omega, by omega⟩
    have hok := h leaf hmem
    have := chain_ok_edges leaf hok k (by omega)
    rw [hpk] at this
    exact this
  · intro h leaf hmem
    rw [List.mem_range'] at hmem
    obtain ⟨t, ht, hteq⟩ := hmem
    exact chain_ok_of_edges h leaf (by omega) (Or.inr (by omega))

/-! ### Claim theorems -/

unseal heapify_up heapify_down chain_ok

/-- C1: the claim states that `remove(index)` succeeds for every
`0 ≤ index < len()`, in particular when the removed element was the last
element of the sequence.  The code violates this: on the valid two-element
ascending heap `[1, 2]`, `remove(1)` swap-removes the `2`, leaving `[1]`,
and then unconditionally reads `self.data[1]` of the one-element vector —
an out-of-bounds panic (modelled as `none`) instead of returning `2`. -/
theorem c1_remove_last_element_panics :
    heapProp minOrder [(1 : Int), 2] ∧ 1 < (Heap.mk [(1 : Int), 2] minOrder).len ∧
      (Heap.mk [(1 : Int), 2] minOrder).remove 1 = none := by
  refine ⟨by decide, by decide, ?_⟩
  rfl

/-- C3: the claim states `is_heap` still returns true after every insertion
into a heap on which it held.  The code violates this: starting from the
freshly constructed empty ascending heap and inserting the equal values `1`
and `1`, the data is `[1, 1]` — which satisfies the heap property — yet
`is_heap` returns `false`, because it demands that each parent strictly
dominate its child and `1 < 1` fails. -/
theorem c3_is_heap_fails_after_equal_inserts :
    is_heap ([] : List Int) minOrder = true ∧
    (((Heap.from_vec_and_cmp ([] : List Int) minOrder).insert 1).insert 1).data
      = [(1 : Int), 1] ∧
    is_heap [(1 : Int), 1] minOrder = false ∧
    heapProp minOrder [(1 : Int), 1] := by
  refine ⟨rfl, by decide, by decide, by decide⟩

/-- C9: removal with an index at or past `len()` fails immediately (the
bounds check inside `swap_remove` fires before any mutation), so the heap is
never silently corrupted. -/
theorem c9_remove_out_of_range :
    ∀ {α : Type} (h : Heap α) (index : Nat), h.len ≤ index → h.remove index = none := by
  intro α h index hge
  exact remove_oob hge

theorem c9_witness :
    (Heap.mk [(1 : Int), 2, 3] minOrder).len ≤ 5 ∧
      (Heap.mk [(1 : Int), 2, 3] minOrder).remove 5 = none :=
  ⟨by decide, c9_remove_out_of_range (Heap.mk [(1 : Int), 2, 3] minOrder) 5 (by decide)⟩

/-- C5: checked construction returns `none` exactly when the linear-time
validation `is_heap` rejects the sequence, returns a heap holding exactly the
supplied sequence otherwise, and in particular rejects `[4, 2, 3, 7]` under
descending order. -/
theorem c5_try_from_checked :
    (∀ {α : Type} (data : List α) (order : α → α → Bool),
      (Heap.try_from_heap_and_cmp data order = none ↔ is_heap data order = false) ∧
      (is_heap data order = true →
        Heap.try_from_heap_and_cmp data order = some (Heap.mk data order))) ∧
    Heap.try_from_heap_and_cmp [(4 : Int), 2, 3, 7] maxOrder = none := by
  constructor
  · intro α data order
    unfold Heap.try_from_heap_and_cmp
    cases hh : is_heap data order with
    | false => simp
    | true => simp
  · rfl

/-- C6 counterexample: the claim says `is_heap` returns true exactly when no
child dominates its parent.  On the three-element array `[5, 10, 1]` under
descending order, `is_heap` returns true (its leaf loop starts at index
`(3+1)/2 = 2` and never inspects index 1), yet the child `10` at index 1
dominates its parent `5`, so the heap property fails. -/
theorem c6_counterexample :
    is_heap [(5 : Int), 10, 1] maxOrder = true ∧
      ¬ heapProp maxOrder [(5 : Int), 10, 1] := by
  refine ⟨by decide, by decide⟩

/-- C6 amended: `is_heap(values, order)` returns true if and only if for
every index `i > 0` with parent `p = (i-1)/2` — except, when the length `n`
is odd, the childless index `i = (n-1)/2`, whose edge the leaf loop starting
at `(n+1)/2` never reaches — the parent strictly dominates the child:
`order(values[p], values[i])` is true.  This differs from the claimed
characterization both on equal-ranked elements (where neither dominates) and
on odd-length arrays. -/
theorem c6_is_heap_characterization :
    ∀ {α : Type} (order : α → α → Bool) (values : List α),
      is_heap values order = true ↔
        ∀ i, i < values.length → 0 < i →
          ¬(values.length % 2 = 1 ∧ i = (values.length - 1) / 2) →
          listDom order values ((i - 1) / 2) i = true := by
  intro α order values
  exact is_heap_eq_true_iff values

/-- C4: bulk construction heapifies in place: the result holds exactly the
input multiset (no element added, duplicated, or dropped, so `to_values`
returns a permutation of the input), and — for any ordering strategy
satisfying the strict-weak-order contract the data model imposes — the
result satisfies the heap property. -/
theorem c4_from_vec_heap_property :
    ∀ {α : Type} (data : List α) (order : α → α → Bool),
      ((Heap.from_vec_and_cmp data order).to_values).Perm data ∧
      (DomAsymm order → DomNegTrans order →
        heapProp order (Heap.from_vec_and_cmp data order).data) := by
  intro α data order
  constructor
  · exact heapify_in_place_perm data
  · intro hA hN
    exact heapify_in_place_heapProp hA hN data

theorem c4_witness :
    ((Heap.from_vec_and_cmp [(4 : Int), 3, 1, 2] minOrder).to_values).Perm [4, 3, 1, 2] ∧
      heapProp minOrder (Heap.from_vec_and_cmp [(4 : Int), 3, 1, 2] minOrder).data :=
  ⟨(c4_from_vec_heap_property [(4 : Int), 3, 1, 2] minOrder).1,
    (c4_from_vec_heap_property [(4 : Int), 3, 1, 2] minOrder).2
      minOrder_asymm minOrder_negtrans⟩

theorem extend_data_perm {α : Type} :
    ∀ (items : List α) (h : Heap α), (h.extend items).data.Perm (h.data ++ items) := by
  intro items
  induction items with
  | nil => intro h; simp [Heap.extend]
  | cons x xs IH =>
    intro h
    have hstep : h.extend (x :: xs) = (h.insert x).extend xs := rfl
    rw [hstep]
    refine (IH (h.insert x)).trans ?_
    have hins : (h.insert x).data.Perm (h.data ++ [x]) := insert_data_perm h.data x
    refine (hins.append_right xs).trans ?_
    rw [List.append_assoc]
    exact List.Perm.refl _

theorem extend_heapProp {α : Type} {order : α → α → Bool} (hA : DomAsymm order)
    (hN : DomNegTrans order) :
    ∀ (items : List α) (data : List α), heapProp order data →
      heapProp order ((Heap.mk data order).extend items).data := by
  intro items
  induction items with
  | nil => intro data hp; exact hp
  | cons x xs IH =>
    intro data hp
    exact IH ((Heap.mk data order).insert x).data (insert_heapProp hA hN hp x)

/-- C10: `Extend` inserts every yielded element in iteration order (it is
definitionally that fold), so it adds exactly the iterated elements to the
stored multiset and — under the strict-weak-order contract — preserves the
heap property; `FromIterator` builds the same heap as inserting the items
one by one into a freshly created empty heap. -/
theorem c10_extend_folds_insert :
    (∀ {α : Type} (h : Heap α) (items : List α),
      h.extend items = items.foldl Heap.insert h ∧
      (h.extend items).data.Perm (h.data ++ items) ∧
      (DomAsymm h.order → DomNegTrans h.order → heapProp h.order h.data →
        heapProp h.order (h.extend items).data)) ∧
    (∀ {α : Type} [inst : LinearOrder α] (items : List α),
      min_heap_from_iter items = (Heap.mk ([] : List α) minOrder).extend items ∧
      max_heap_from_iter items = (Heap.mk ([] : List α) maxOrder).extend items) := by
  constructor
  · intro α h items
    refine ⟨rfl, extend_data_perm items h, ?_⟩
    intro hA hN hp
    exact extend_heapProp hA hN items h.data hp
  · intro α inst items
    exact ⟨rfl, rfl⟩

theorem c10_witness :
    heapProp minOrder ((Heap.mk [(1 : Int), 2] minOrder).extend [0, 5]).data :=
  (c10_extend_folds_insert.1 (Heap.mk [(1 : Int), 2] minOrder) [0, 5]).2.2
    minOrder_asymm minOrder_negtrans (by decide)

/-- C7 counterexample: the claim says the sift-up loop performs no swap when
the new element does not dominate its parent.  Under the rank ordering
(compare tens digits only), 12 and 15 have equal rank, so neither dominates
the other; yet inserting 12 into the one-element heap `[15]` swaps them,
because the loop swaps whenever the parent fails to dominate — the array
becomes `[12, 15]`, not the claimed `[15, 12]`. -/
theorem c7_counterexample :
    rankOrder 12 15 = false ∧ rankOrder 15 12 = false ∧
      ((Heap.mk [(15 : Int)] rankOrder).insert 12).data = [12, 15] := by
  refine ⟨by decide, by decide, by decide⟩

/-- C7 amended: after the value is appended at the end, the sift-up loop
swaps the new element with its parent exactly while the parent cannot go
above it, stopping at the root or at a parent that dominates the element; in
particular if the parent dominates the newly appended element (the source's
comparison, not the claimed one), no swap is performed. -/
theorem c7_sift_up_stops_when_parent_dominates :
    ∀ {α : Type} (h : Heap α) (value : α), h.data ≠ [] →
      (listDom h.order (h.data ++ [value]) ((h.data.length - 1) / 2) h.data.length = true →
        (h.insert value).data = h.data ++ [value]) ∧
      (listDom h.order (h.data ++ [value]) ((h.data.length - 1) / 2) h.data.length = false →
        (h.insert value).data
          = heapify_up (listSwap (h.data ++ [value]) ((h.data.length - 1) / 2) h.data.length)
              ((h.data.length - 1) / 2) h.order) := by
  intro α h value hne
  have hpos : 0 < h.data.length := List.length_pos.mpr hne
  constructor <;> intro hc
  · show heapify_up (h.data ++ [value]) h.data.length h.order = h.data ++ [value]
    rw [heapify_up, dif_pos hpos]
    dsimp only
    rw [hc]
    simp
  · show heapify_up (h.data ++ [value]) h.data.length h.order = _
    rw [heapify_up, dif_pos hpos]
    dsimp only
    rw [hc]
    simp

theorem c7_witness :
    (listDom minOrder ([(1 : Int), 2, 3] ++ [0]) 1 3 = true →
      ((Heap.mk [(1 : Int), 2, 3] minOrder).insert 0).data = [(1 : Int), 2, 3] ++ [0]) ∧
    (listDom minOrder ([(1 : Int), 2, 3] ++ [0]) 1 3 = false →
      ((Heap.mk [(1 : Int), 2, 3] minOrder).insert 0).data
        = heapify_up (listSwap ([(1 : Int), 2, 3] ++ [0]) 1 3) 1 minOrder) :=
  c7_sift_up_stops_when_parent_dominates (Heap.mk [(1 : Int), 2, 3] minOrder) 0 (by decide)

/-- C8 counterexample: on the valid ascending five-element heap
`[1, 2, 3, 4, 5]`, removing interior index 2 (between 0 and `len() - 1`) and
reinserting the removed value 3 yields the array `[1, 2, 5, 4, 3]`, not the
original array: the swap-with-last deletion moves 5 into index 2 and the
reinserted 3 is appended at the end, where sift-up stops immediately. -/
theorem c8_counterexample :
    heapProp minOrder [(1 : Int), 2, 3, 4, 5] ∧
    ((Heap.mk [(1 : Int), 2, 3, 4, 5] minOrder).remove 2).map
        (fun p => (p.2.insert p.1).data) = some [1, 2, 5, 4, 3] ∧
    [(1 : Int), 2, 5, 4, 3] ≠ [(1 : Int), 2, 3, 4, 5] := by
  refine ⟨by decide, by decide, by decide⟩

/-- C8 amended: removing an interior non-root index from a valid heap and
reinserting a value leaves a valid heap; reinserting the removed value
itself restores the original multiset (the array is a permutation of the
one before the removal), though not necessarily the identical array. -/
theorem c8_remove_insert_same_multiset :
    ∀ {α : Type} (order : α → α → Bool) (data : List α) (index : Nat) (v : α),
      DomAsymm order → DomNegTrans order → heapProp order data →
      0 < index → index + 1 < data.length →
      ∃ ret h2, (Heap.mk data order).remove index = some (ret, h2) ∧
        data[index]? = some ret ∧
        heapProp order h2.data ∧
        data.Perm (ret :: h2.data) ∧
        heapProp order ((h2.insert v).data) ∧
        ((h2.insert ret).data).Perm data := by
  intro α order data index v hA hN hp h0 hlt
  obtain ⟨ret, out, hres, hretEq, hlen, hpOut, hperm⟩ :=
    @remove_spec _ order hA hN data hp index (by omega) (by omega)
  refine ⟨ret, Heap.mk out order, hres, hretEq, hpOut, hperm, ?_, ?_⟩
  · exact insert_heapProp hA hN hpOut v
  · exact ((insert_data_perm out ret).trans
      (List.perm_append_singleton ret out)).trans hperm.symm

theorem c8_witness :
    ∃ ret h2, (Heap.mk [(1 : Int), 2, 3, 4, 5] minOrder).remove 2 = some (ret, h2) ∧
      [(1 : Int), 2, 3, 4, 5][2]? = some ret ∧
      heapProp minOrder h2.data ∧
      [(1 : Int), 2, 3, 4, 5].Perm (ret :: h2.data) ∧
      heapProp minOrder ((h2.insert 3).data) ∧
      ((h2.insert ret).data).Perm [(1 : Int), 2, 3, 4, 5] :=
  c8_remove_insert_same_multiset minOrder [(1 : Int), 2, 3, 4, 5] 2 3
    minOrder_asymm minOrder_negtrans (by decide) (by decide) (by decide)

/-- C2: for an ascending-ordered heap built from any multiset, repeatedly
calling `remove(0)` until empty yields the values in non-decreasing order,
and for a descending-ordered heap in non-increasing order; equivalently,
`remove(0)` on any non-empty valid heap returns a dominant element among all
stored elements — a minimum under ascending order, a maximum under
descending order. -/
theorem c2_extract_in_order :
    ∀ {α : Type} [inst : LinearOrder α],
      (∀ data : List α, List.Sorted (· ≤ ·) (extract_all (Heap.minOf data))) ∧
      (∀ data : List α, List.Sorted (· ≥ ·) (extract_all (Heap.maxOf data))) ∧
      (∀ data : List α, heapProp minOrder data → data ≠ [] →
        ∃ v h2, (Heap.mk data minOrder).remove 0 = some (v, h2) ∧ ∀ x ∈ data, v ≤ x) ∧
      (∀ data : List α, heapProp maxOrder data → data ≠ [] →
        ∃ v h2, (Heap.mk data maxOrder).remove 0 = some (v, h2) ∧ ∀ x ∈ data, x ≤ v) := by
  intro α inst
  refine ⟨?_, ?_, ?_, ?_⟩
  · intro data
    have hp := heapify_in_place_heapProp minOrder_asymm minOrder_negtrans data
    have hs := (extract_all_sorted minOrder_asymm minOrder_negtrans
      (heapify_in_place data minOrder).length (heapify_in_place data minOrder)
      (le_refl _) hp).1
    refine hs.imp ?_
    intro a b hab
    simp only [minOrder, decide_eq_false_iff_not] at hab
    exact le_of_not_lt hab
  · intro data
    have hp := heapify_in_place_heapProp maxOrder_asymm maxOrder_negtrans data
    have hs := (extract_all_sorted maxOrder_asymm maxOrder_negtrans
      (heapify_in_place data maxOrder).length (heapify_in_place data maxOrder)
      (le_refl _) hp).1
    refine hs.imp ?_
    intro a b hab
    simp only [maxOrder, decide_eq_false_iff_not] at hab
    exact le_of_not_lt hab
  · intro data hp hne
    have h0 : 0 < data.length := List.length_pos.mpr hne
    obtain ⟨v, out, hres, hret, _, _, _⟩ :=
      @remove_spec _ minOrder minOrder_asymm minOrder_negtrans data hp 0 h0 (by omega)
    refine ⟨v, Heap.mk out minOrder, hres, ?_⟩
    intro x hx
    obtain ⟨i, hxi⟩ := List.mem_iff_getElem?.mp hx
    have hilt := (List.getElem?_eq_some_iff.mp hxi).1
    have hroot := heapProp_root_min minOrder_asymm minOrder_negtrans hp i hilt
    rw [listDom_eq_order hxi hret] at hroot
    simp only [minOrder, decide_eq_false_iff_not] at hroot
    exact le_of_not_lt hroot
  · intro data hp hne
    have h0 : 0 < data.length := List.length_pos.mpr hne
    obtain ⟨v, out, hres, hret, _, _, _⟩ :=
      @remove_spec _ maxOrder maxOrder_asymm maxOrder_negtrans data hp 0 h0 (by omega)
    refine ⟨v, Heap.mk out maxOrder, hres, ?_⟩
    intro x hx
    obtain ⟨i, hxi⟩ := List.mem_iff_getElem?.mp hx
    have hilt := (List.getElem?_eq_some_iff.mp hxi).1
    have hroot := heapProp_root_min maxOrder_asymm maxOrder_negtrans hp i hilt
    rw [listDom_eq_order hxi hret] at hroot
    simp only [maxOrder, decide_eq_false_iff_not] at hroot
    exact le_of_not_lt hroot

theorem c2_witness :
    ∃ v h2, (Heap.mk [(1 : Int), 3, 2] minOrder).remove 0 = some (v, h2) ∧
      ∀ x ∈ [(1 : Int), 3, 2], v ≤ x :=
  (@c2_extract_in_order Int _).2.2.1 [1, 3, 2] (by decide) (by decide)

theorem c5_witness :
    Heap.try_from_heap_and_cmp [(1 : Int), 2] minOrder
      = some (Heap.mk [(1 : Int), 2] minOrder) :=
  (c5_try_from_checked.1 [(1 : Int), 2] minOrder).2 (by decide)

theorem c6_witness : listDom maxOrder [(4 : Int), 3, 1, 2] 0 1 = true :=
  (c6_is_heap_characterization maxOrder [(4 : Int), 3, 1, 2]).mp (by decide)
    1 (by decide) (by decide) (by decide)
